import Mathlib

/-!
Verification of the GitHub-QQ-Bot monitoring pipeline.

Shallow embedding of the repository's core logic:
  * `src/src/github_monitor.py` — branch resolution, per-branch commit
    fetching, truncation at the last processed sha, detail enrichment,
    cross-branch deduplication (`GitHubMonitor.get_new_commits`,
    `_get_branch_commits`, `_get_commit_details`);
  * `src/main.py` — the per-repository processing cycle (`process_repo`):
    summarizer invocation with its fallback digest, delivery to the QQ
    channel, and the checkpoint update discipline;
  * `src/src/database.py` — the per-repository checkpoint row
    (`last_check_time`, `last_commit_sha`) updated by
    `Database.update_last_check_time`.

Network requests (the GitHub list endpoint, the per-commit detail
endpoint, the QQ delivery endpoint, the OpenAI summarizer) are modelled
as oracle functions whose `none` / `Except.error` values stand for the
failure paths the Python code handles (non-200 statuses and raised
exceptions).  Times are modelled abstractly: the code only ever stores
the formatted value, so a fetch window or a checkpoint time is an opaque
value, not arithmetic.
-/

namespace GitHubQQBot

/-- A file-change entry of a formatted commit, from
`GitHubMonitor._format_commit` (the `files` list). -/
structure FileChange where
  filename : String
  status : String
  additions : Nat
  deletions : Nat
  changes : Nat
  deriving DecidableEq, Repr

/-- The per-commit stats of a formatted commit, from
`GitHubMonitor._format_commit` (the `stats` dict). -/
structure CommitStats where
  additions : Nat
  deletions : Nat
  total : Nat
  deriving DecidableEq, Repr

/-- A formatted commit as produced by `GitHubMonitor._format_commit`:
short sha (first 7 characters), full sha, message, author name and
email, date, html url, stats and changed files. -/
structure Commit where
  sha : String
  full_sha : String
  message : String
  author : String
  author_email : String
  date : String
  url : String
  stats : CommitStats
  files : List FileChange
  deriving DecidableEq, Repr

/-- The query parameters `_get_branch_commits` sends to the GitHub list
endpoint: `per_page` is always set (to 30), `sha` is the branch selector
(present only when a branch was given), `since` is the formatted time
filter (present only when a last-check time was given). -/
structure FetchParams where
  per_page : Nat
  sha : Option String
  since : Option String
  deriving DecidableEq, Repr

/-- `_get_branch_commits` building its `params` dict: `per_page = 30`
always; `params["sha"] = branch` only `if branch:`; `params["since"]`
only `if since:` (the strftime-formatted value is modelled as the
opaque string carried by the option). -/
def buildParams (branch : Option String) (since : Option String) : FetchParams :=
  { per_page := 30, sha := branch, since := since }

/-- The filtering loop of `_get_branch_commits`: with a stored
`last_commit_sha`, walk the newest-first response and `break` at the
first commit whose sha equals it, collecting the commits before it;
with no stored sha the response is left as is. -/
def filterNewCommits (lastSha : Option String) (shas : List String) : List String :=
  match lastSha with
  | none => shas
  | some s => shas.takeWhile (fun sha => sha != s)

/-- `_get_branch_commits`: build the params, query the list endpoint
(`api`; `none` models every non-200 / exception path, all of which
return `[]`), truncate at `lastSha`, then enrich each remaining sha via
the detail endpoint (`details`, modelling `_get_commit_details`, whose
failures yield `none`); a commit whose enrichment returns a falsy value
is skipped (`if detailed_commit:`). -/
def getBranchCommits (api : FetchParams → Option (List String))
    (details : String → Option Commit)
    (branch : Option String) (since : Option String) (lastSha : Option String) :
    List Commit :=
  match api (buildParams branch since) with
  | none => []
  | some shas => (filterNewCommits lastSha shas).filterMap details

/-- The branch-list normalisation at the top of `get_new_commits`:
`if not branches or "*" in branches: branches = None` — a missing list,
an empty list, or any occurrence of the wildcard collapses to the
all-branches sentinel. -/
def resolveBranches (branches : Option (List String)) : Option (List String) :=
  match branches with
  | none => none
  | some bs => if bs.isEmpty || bs.contains "*" then none else some bs

/-- The branch selectors `get_new_commits` iterates over: the sentinel
yields a single fetch with no selector; an explicit list yields one
fetch per named branch, in the declared order. -/
def branchSelectors (branches : Option (List String)) : List (Option String) :=
  match resolveBranches branches with
  | none => [none]
  | some bs => bs.map some

/-- The full parameter sets of the fetch calls a `get_new_commits`
invocation issues, in order: one `buildParams` per branch selector. -/
def fetchCallParams (branches : Option (List String)) (since : Option String) :
    List FetchParams :=
  (branchSelectors branches).map (fun b => buildParams b since)

/-- The concatenation step of `get_new_commits`: `all_commits` is the
per-branch results extended in branch order (a single call for the
sentinel). -/
def allBranchCommits (api : FetchParams → Option (List String))
    (details : String → Option Commit)
    (since : Option String) (lastSha : Option String)
    (branches : Option (List String)) : List Commit :=
  (branchSelectors branches).flatMap
    (fun b => getBranchCommits api details b since lastSha)

/-- The deduplication loop of `get_new_commits`: walk `all_commits`,
keeping a commit only when its `full_sha` has not been seen yet (the
`seen_shas` set is modelled by the accumulator list). -/
def dedupCommits (seen : List String) : List Commit → List Commit
  | [] => []
  | c :: cs =>
    if seen.contains c.full_sha then dedupCommits seen cs
    else c :: dedupCommits (c.full_sha :: seen) cs

/-- `GitHubMonitor.get_new_commits`: resolve the branch list, fetch each
branch, concatenate, deduplicate by full sha keeping first occurrences,
and return the reversal (`unique_commits[::-1]`, oldest first). -/
def getNewCommits (api : FetchParams → Option (List String))
    (details : String → Option Commit)
    (since : Option String) (lastSha : Option String)
    (branches : Option (List String)) : List Commit :=
  (dedupCommits [] (allBranchCommits api details since lastSha branches)).reverse

/-- A fully-enriched commit built from a sha alone, used as the total
detail oracle (every enrichment succeeds) and as test data; its short
sha is the 7-character prefix, as in `_format_commit`. -/
def mkCommit (s : String) : Commit :=
  { sha := s.take 7, full_sha := s, message := s, author := "a",
    author_email := "a@e", date := "d", url := "u",
    stats := ⟨0, 0, 0⟩, files := [] }

/-! ### The checkpoint row and the processing cycle (`database.py`, `main.py`) -/

/-- The per-repository row of `repo_checks` as read by
`Database.get_last_check_time` / `get_last_commit_sha`: both columns
are nullable; an absent row reads as both `none`.  The check time is
opaque (the code only stores and replays the formatted value), modelled
as a `Nat` clock. -/
structure RepoState where
  lastCheckTime : Option Nat
  lastCommitSha : Option String
  deriving DecidableEq, Repr

/-- `Database.update_last_check_time`: `INSERT OR REPLACE` of the row
with the given check time and sha — both columns are overwritten. -/
def updateLastCheckTime (_st : RepoState) (checkTime : Nat) (sha : Option String) :
    RepoState :=
  { lastCheckTime := some checkTime, lastCommitSha := sha }

/-- Truncation of a commit message to `n` characters, with a trailing
ellipsis when it was longer (`message[:n]` plus `'...' if len > n`),
as in both digest builders of `main.py`. -/
def truncateMessage (s : String) (n : Nat) : String :=
  s.take n ++ (if n < s.length then "..." else "")

/-- One entry of the fallback digest built in `process_repo` when the
summarizer raises: short sha, message truncated to 100 characters, then
the author and url line, as appended by the loop body. -/
def commitEntry (c : Commit) : String :=
  "• " ++ c.sha ++ ": " ++ truncateMessage c.message 100 ++ "\n" ++
  "  👤 " ++ c.author ++ " | 🔗 " ++ c.url ++ "\n\n"

/-- The fallback digest of `process_repo` (`main.py` lines 117–122): a
header with the repository and batch size, then the loop appending one
`commitEntry` per commit of `commits[:5]`, then, when more than 5
commits exist, the overflow note with the remaining count. -/
def fallbackSummary (repo : String) (commits : List Commit) : String :=
  let base := "🔄 仓库 " ++ repo ++ " 有 " ++ toString commits.length ++
    " 个新提交:\n\n"
  let body := (commits.take 5).foldl (fun acc c => acc ++ commitEntry c) base
  if 5 < commits.length then
    body ++ "... 还有 " ++ toString (commits.length - 5) ++ " 个提交"
  else body

/-- The header of the fallback digest, as interpolated by `main.py`. -/
def fallbackHeader (repo : String) (commits : List Commit) : String :=
  "🔄 仓库 " ++ repo ++ " 有 " ++ toString commits.length ++ " 个新提交:\n\n"

/-- The concatenated commit entries of a fallback digest. -/
def entriesText : List Commit → String
  | [] => ""
  | c :: cs => commitEntry c ++ entriesText cs

/-- The overflow note of the fallback digest: present exactly when the
batch holds more than 5 commits, counting the remainder. -/
def overflowNote (commits : List Commit) : String :=
  if 5 < commits.length then
    "... 还有 " ++ toString (commits.length - 5) ++ " 个提交"
  else ""

/-- `AISummarizer._generate_simple_summary`: the summarizer-internal
fallback listing (at most 3 entries of short sha and 50-character
message, plus an overflow count), returned by `summarize_commits` when
the AI request raises inside it; the cycle-level fallback of
`process_repo` (`fallbackSummary`) is reached only when
`summarize_commits` itself raises out of that handler. -/
def generateSimpleSummary (repo : String) (commits : List Commit) : String :=
  let header := "📊 " ++ repo ++ " 代码更新\n" ++ "====================\n"
  let entries := (commits.take 3).map
    (fun c => "• " ++ c.sha ++ " - " ++ truncateMessage c.message 50)
  let entries2 :=
    if 3 < commits.length then
      entries ++ ["... 还有 " ++ toString (commits.length - 3) ++ " 个提交"]
    else entries
  let footer := "\n🔗 查看详情：https://github.com/" ++ repo ++ "/commits"
  header ++ String.intercalate "\n" entries2 ++ footer

/-- The message `process_repo` sends: the summarizer's text when the
`await ai_summarizer.summarize_commits(...)` call returns, the fallback
digest when it raises (`except Exception`). -/
def summaryOf (repo : String) (commits : List Commit)
    (summarize : Except Unit String) : String :=
  match summarize with
  | Except.ok s => s
  | Except.error _ => fallbackSummary repo commits

/-- Whether a delivery outcome counts as success in `process_repo`:
`qq_bot.send_message` returned `True`; returning `False` or raising
(`Except.error`) both take the no-update path. -/
def deliveryOk (r : Except Unit Bool) : Bool :=
  match r with
  | Except.ok true => true
  | _ => false

/-- The observable outcome of one `process_repo` cycle: the checkpoint
row afterwards, whether the summarizer and the delivery channel were
invoked, and the message handed to delivery (if any). -/
structure CycleResult where
  state : RepoState
  summarizerInvoked : Bool
  deliveryInvoked : Bool
  message : Option String
  deriving Repr

/-- `process_repo` (`main.py`): read the checkpoint, fetch the new
commits (here passed in as the already-computed batch, oldest first),
return immediately on an empty batch; otherwise build the message
(summary or fallback), deliver it, and only on a `True` delivery result
update the row with `now` and the full sha of `commits[-1]` (the newest
commit); on `False` or a raised exception the row is untouched. -/
def processRepo (st : RepoState) (repo : String) (commits : List Commit)
    (now : Nat) (summarize : Except Unit String)
    (deliver : String → Except Unit Bool) : CycleResult :=
  match commits with
  | [] => ⟨st, false, false, none⟩
  | c :: cs =>
    let summary := summaryOf repo (c :: cs) summarize
    match deliver summary with
    | Except.ok true =>
      ⟨updateLastCheckTime st now
          (some (((c :: cs).getLast (List.cons_ne_nil c cs)).full_sha)),
        true, true, some summary⟩
    | Except.ok false => ⟨st, true, true, some summary⟩
    | Except.error _ => ⟨st, true, true, some summary⟩

/-- One iteration of the outer monitoring loop for a repository: the
batch the Sync Engine produced, the wall-clock time, and the outcomes
of the summarizer and delivery calls of that iteration. -/
structure Cycle where
  batch : List Commit
  now : Nat
  summarize : Except Unit String
  deliver : String → Except Unit Bool

/-- Run a sequence of `process_repo` cycles, threading the checkpoint
row. -/
def runCycles (repo : String) (st : RepoState) : List Cycle → RepoState
  | [] => st
  | cy :: rest =>
    runCycles repo (processRepo st repo cy.batch cy.now cy.summarize cy.deliver).state
      rest

/-- A cycle whose batch is non-empty and whose delivery reported
success — exactly the cycles that advance the checkpoint. -/
def deliveredCycle (repo : String) (cy : Cycle) : Bool :=
  !cy.batch.isEmpty &&
    deliveryOk (cy.deliver (summaryOf repo cy.batch cy.summarize))

/-! ### Concrete fixtures -/

/-- A two-branch fetch fixture: commit `x` is reachable from both
monitored branches `A` (response `[x]`) and `B` (response `[y, x]`). -/
def dupApi : FetchParams → Option (List String) := fun p =>
  match p.sha with
  | some "A" => some ["x"]
  | some "B" => some ["y", "x"]
  | _ => some []

/-- A seven-commit batch. -/
def sample7 : List Commit :=
  ["s1", "s2", "s3", "s4", "s5", "s6", "s7"].map mkCommit

/-- A cycle whose delivery succeeds. -/
def cycleA : Cycle :=
  ⟨[mkCommit "aa"], 1, Except.ok "s", fun _ => Except.ok true⟩

/-- A cycle whose delivery returns failure. -/
def cycleB : Cycle :=
  ⟨[mkCommit "bb"], 2, Except.ok "t", fun _ => Except.ok false⟩

/-! ### Helper lemmas -/

/-- Characterisation of the checkpoint row after one cycle: advanced to
`now` and the newest commit's full sha exactly when the batch is
non-empty and delivery succeeded, untouched otherwise. -/
theorem processRepo_state_eq (st : RepoState) (repo : String) (commits : List Commit)
    (now : Nat) (summarize : Except Unit String) (deliver : String → Except Unit Bool) :
    (processRepo st repo commits now summarize deliver).state =
      if commits ≠ [] ∧ deliveryOk (deliver (summaryOf repo commits summarize)) = true then
        { lastCheckTime := some now,
          lastCommitSha := commits.getLast?.map Commit.full_sha }
      else st := by
  match commits with
  | [] => simp [processRepo]
  | c :: cs =>
    simp only [processRepo]
    cases hd : deliver (summaryOf repo (c :: cs) summarize) with
    | ok b =>
      cases b with
      | true =>
        simp [deliveryOk, hd, updateLastCheckTime,
          List.getLast?_eq_getLast_of_ne_nil (List.cons_ne_nil c cs)]
      | false => simp [deliveryOk, hd]
    | error e => simp [deliveryOk, hd]

theorem deliveredCycle_iff (repo : String) (cy : Cycle) :
    deliveredCycle repo cy = true ↔
      cy.batch ≠ [] ∧
        deliveryOk (cy.deliver (summaryOf repo cy.batch cy.summarize)) = true := by
  simp [deliveredCycle, List.isEmpty_iff]

theorem runCycles_append (repo : String) (st : RepoState) (l1 l2 : List Cycle) :
    runCycles repo st (l1 ++ l2) = runCycles repo (runCycles repo st l1) l2 := by
  induction l1 generalizing st with
  | nil => rfl
  | cons cy rest ih => simp [runCycles, ih]

/-- Cycles that are not delivered (empty batch, delivery `False`, or a
delivery exception) leave the checkpoint row untouched. -/
theorem runCycles_undelivered (repo : String) (st : RepoState) (l : List Cycle)
    (h : ∀ cy ∈ l, deliveredCycle repo cy = false) :
    runCycles repo st l = st := by
  induction l generalizing st with
  | nil => rfl
  | cons cy rest ih =>
    have hcy : deliveredCycle repo cy = false := h cy (List.mem_cons_self cy rest)
    have hstate :
        (processRepo st repo cy.batch cy.now cy.summarize cy.deliver).state = st := by
      rw [processRepo_state_eq]
      have : ¬ (cy.batch ≠ [] ∧
          deliveryOk (cy.deliver (summaryOf repo cy.batch cy.summarize)) = true) := by
        rw [← deliveredCycle_iff]
        simp [hcy]
      simp [this]
    simp only [runCycles, hstate]
    exact ih st (fun d hd => h d (List.mem_cons_of_mem cy hd))

/-- The truncation loop stops at the first occurrence of the stored
sha: on a response `pre ++ s :: post` with `s` not in `pre`, exactly
`pre` is kept. -/
theorem filterNewCommits_split (pre post : List String) (s : String) (hs : s ∉ pre) :
    filterNewCommits (some s) (pre ++ s :: post) = pre := by
  induction pre with
  | nil => simp [filterNewCommits, List.takeWhile_cons]
  | cons a as ih =>
    have ha : a ≠ s := fun h => hs (h ▸ List.mem_cons_self a as)
    have has : s ∉ as := fun h => hs (List.mem_cons_of_mem a h)
    have ih' := ih has
    simp only [filterNewCommits, List.cons_append, List.takeWhile_cons] at ih' ⊢
    simp [ha, ih']

/-- Deduplication is the identity on a list whose full shas are fresh
and pairwise distinct. -/
theorem dedupCommits_eq_self (seen : List String) (l : List Commit)
    (h1 : ∀ c ∈ l, c.full_sha ∉ seen) (h2 : (l.map Commit.full_sha).Nodup) :
    dedupCommits seen l = l := by
  induction l generalizing seen with
  | nil => rfl
  | cons c cs ih =>
    have hc : c.full_sha ∉ seen := h1 c (List.mem_cons_self c cs)
    have hcontains : seen.contains c.full_sha = false := by simp [hc]
    simp only [dedupCommits, hcontains, Bool.false_eq_true, if_false]
    rw [ih (c.full_sha :: seen)]
    · intro d hd
      simp only [List.mem_cons]
      push_neg
      refine ⟨?_, fun h => h1 d (List.mem_cons_of_mem c hd) h⟩
      intro hdc
      have : d.full_sha ∈ cs.map Commit.full_sha := List.mem_map_of_mem _ hd
      rw [hdc] at this
      exact (List.nodup_cons.mp h2).1 this
    · exact (List.nodup_cons.mp h2).2

/-- Every full sha not yet seen appears in the deduplicated list
exactly once; seen shas and absent shas appear zero times. -/
theorem dedupCommits_countP (seen : List String) (l : List Commit) (sha : String) :
    (dedupCommits seen l).countP (fun c => c.full_sha == sha) =
      if sha ∉ seen ∧ sha ∈ l.map Commit.full_sha then 1 else 0 := by
  induction l generalizing seen with
  | nil => simp [dedupCommits]
  | cons c cs ih =>
    by_cases hc : c.full_sha ∈ seen
    · have hcontains : seen.contains c.full_sha = true := by simp [hc]
      simp only [dedupCommits, hcontains, if_true]
      rw [ih seen]
      by_cases hsha : sha = c.full_sha
      · subst hsha
        simp [hc]
      · simp [List.mem_cons, hsha]
    · have hcontains : seen.contains c.full_sha = false := by simp [hc]
      simp only [dedupCommits, hcontains, Bool.false_eq_true, if_false]
      rw [List.countP_cons, ih (c.full_sha :: seen)]
      by_cases hsha : sha = c.full_sha
      · subst hsha
        simp [hc]
      · simp only [List.mem_cons, beq_iff_eq, hsha, Ne.symm hsha, false_or,
          if_false, add_zero]
        by_cases h1 : sha ∈ seen
        · simp [h1]
        · by_cases h2 : sha ∈ cs.map Commit.full_sha <;>
            simp [h1, h2, hsha]

/-- Every commit kept by deduplication is the first commit of the input
carrying its full sha (and its sha was not yet seen). -/
theorem dedupCommits_find? (seen : List String) (l : List Commit) (c : Commit)
    (hc : c ∈ dedupCommits seen l) :
    c.full_sha ∉ seen ∧ l.find? (fun d => d.full_sha == c.full_sha) = some c := by
  induction l generalizing seen with
  | nil => simp [dedupCommits] at hc
  | cons d ds ih =>
    by_cases hd : d.full_sha ∈ seen
    · have hcontains : seen.contains d.full_sha = true := by simp [hd]
      rw [dedupCommits, hcontains, if_pos rfl] at hc
      obtain ⟨hnotseen, hfind⟩ := ih seen hc
      have hne : (d.full_sha == c.full_sha) = false :=
        beq_eq_false_iff_ne.mpr (fun h => hnotseen (h ▸ hd))
      refine ⟨hnotseen, ?_⟩
      rw [List.find?_cons, hne, hfind]
    · have hcontains : seen.contains d.full_sha = false := by simp [hd]
      rw [dedupCommits, hcontains] at hc
      simp only [Bool.false_eq_true, if_false, List.mem_cons] at hc
      rcases hc with hc | hc
      · subst hc
        refine ⟨hd, ?_⟩
        rw [List.find?_cons]
        simp
      · obtain ⟨hnotseen, hfind⟩ := ih (d.full_sha :: seen) hc
        simp only [List.mem_cons] at hnotseen
        push_neg at hnotseen
        have hne : (d.full_sha == c.full_sha) = false :=
          beq_eq_false_iff_ne.mpr (Ne.symm hnotseen.1)
        refine ⟨hnotseen.2, ?_⟩
        rw [List.find?_cons, hne, hfind]

/-- The string-building loop of the fallback digest appends the entries
of the listed commits, in order, to the header. -/
theorem foldl_commitEntry (l : List Commit) (base : String) :
    l.foldl (fun acc c => acc ++ commitEntry c) base = base ++ entriesText l := by
  induction l generalizing base with
  | nil => simp [entriesText]
  | cons c cs ih =>
    simp only [List.foldl_cons, entriesText, ih, String.append_assoc]

/-! ### Claim theorems -/

/-- C1: in a cycle with a non-empty batch, the checkpoint row is
advanced to `now` and the full sha of the batch's last (newest) commit
exactly when delivery reports success; when delivery returns failure or
raises, the row is left completely unchanged. -/
theorem processRepo_checkpoint_iff_delivery (st : RepoState) (repo : String)
    (commits : List Commit) (now : Nat) (summarize : Except Unit String)
    (deliver : String → Except Unit Bool) (h : commits ≠ []) :
    (processRepo st repo commits now summarize deliver).state =
      (if deliveryOk (deliver (summaryOf repo commits summarize)) then
        { lastCheckTime := some now,
          lastCommitSha := commits.getLast?.map Commit.full_sha }
      else st) := by
  rw [processRepo_state_eq]
  by_cases hd : deliveryOk (deliver (summaryOf repo commits summarize)) = true
  · simp [h, hd]
  · simp [h, hd]

theorem processRepo_checkpoint_iff_delivery_witness :
    ([mkCommit "aaa"] ≠ []) ∧
    (processRepo ⟨none, none⟩ "o/r" [mkCommit "aaa"] 5 (Except.ok "s")
        (fun _ => Except.ok true)).state =
      (if deliveryOk ((fun _ => Except.ok true)
          (summaryOf "o/r" [mkCommit "aaa"] (Except.ok "s"))) then
        { lastCheckTime := some 5,
          lastCommitSha := [mkCommit "aaa"].getLast?.map Commit.full_sha }
      else (⟨none, none⟩ : RepoState)) :=
  ⟨by decide,
    processRepo_checkpoint_iff_delivery ⟨none, none⟩ "o/r" [mkCommit "aaa"] 5
      (Except.ok "s") (fun _ => Except.ok true) (by decide)⟩

/-- C7: a cycle whose batch is empty invokes neither the summarizer nor
the delivery channel and leaves the checkpoint row unchanged. -/
theorem processRepo_empty_noop (st : RepoState) (repo : String) (now : Nat)
    (summarize : Except Unit String) (deliver : String → Except Unit Bool) :
    processRepo st repo [] now summarize deliver =
      { state := st, summarizerInvoked := false, deliveryInvoked := false,
        message := none } := rfl

/-- C5: after any trace of cycles whose last delivered cycle is `cy`,
the stored `lastCommitSha` is the full sha of the last (newest) commit
of `cy`'s batch — never a commit of an earlier batch nor a non-final
commit of the batch. -/
theorem runCycles_lastCommit (repo : String) (st : RepoState) (pre post : List Cycle)
    (cy : Cycle) (h1 : deliveredCycle repo cy = true)
    (h2 : ∀ d ∈ post, deliveredCycle repo d = false) :
    (runCycles repo st (pre ++ cy :: post)).lastCommitSha =
      cy.batch.getLast?.map Commit.full_sha := by
  rw [runCycles_append]
  simp only [runCycles]
  rw [runCycles_undelivered repo _ post h2]
  rw [processRepo_state_eq]
  rw [deliveredCycle_iff] at h1
  simp [h1]

theorem runCycles_lastCommit_witness :
    deliveredCycle "o/r" cycleA = true ∧
    (∀ d ∈ [cycleB], deliveredCycle "o/r" d = false) ∧
    (runCycles "o/r" ⟨none, none⟩ ([] ++ cycleA :: [cycleB])).lastCommitSha =
      cycleA.batch.getLast?.map Commit.full_sha := by
  have hpost : ∀ d ∈ [cycleB], deliveredCycle "o/r" d = false := by
    intro d hd
    rw [List.mem_singleton] at hd
    subst hd
    decide
  exact ⟨by decide, hpost,
    runCycles_lastCommit "o/r" ⟨none, none⟩ [] [cycleB] cycleA (by decide) hpost⟩

/-- C2 counterexample: with a single retained commit `abc` whose
detail-enrichment request fails, the fetcher's output is empty — the
commit is dropped, not kept with an empty file list. -/
theorem getBranchCommits_drop_cex :
    getBranchCommits (fun _ => some ["abc"]) (fun _ => none) none none none = [] ∧
    ¬ ∃ c ∈ getBranchCommits (fun _ => some ["abc"]) (fun _ => none) none none none,
        c.full_sha = "abc" := by
  have h : getBranchCommits (fun _ => some ["abc"]) (fun _ => none) none none none
      = [] := rfl
  exact ⟨h, by simp [h]⟩

/-- C2 (amended): every commit in the fetcher's output comes from a
successful detail enrichment; a retained commit whose enrichment fails
is dropped from the output entirely. -/
theorem getBranchCommits_enrichment_success (api : FetchParams → Option (List String))
    (details : String → Option Commit) (branch : Option String)
    (since : Option String) (lastSha : Option String) (c : Commit)
    (hc : c ∈ getBranchCommits api details branch since lastSha) :
    ∃ s, details s = some c := by
  unfold getBranchCommits at hc
  cases hapi : api (buildParams branch since) with
  | none => rw [hapi] at hc; simp at hc
  | some shas =>
    rw [hapi] at hc
    obtain ⟨s, _, hs⟩ := List.mem_filterMap.mp hc
    exact ⟨s, hs⟩

theorem getBranchCommits_enrichment_success_witness :
    (mkCommit "abc" ∈ getBranchCommits (fun _ => some ["abc"])
        (fun s => some (mkCommit s)) none none none) ∧
    ∃ s, (fun s => some (mkCommit s)) s = some (mkCommit "abc") :=
  ⟨by decide,
    getBranchCommits_enrichment_success (fun _ => some ["abc"])
      (fun s => some (mkCommit s)) none none none (mkCommit "abc") (by decide)⟩

/-- C3: for a newest-first fetch response `pre ++ s :: post` and stored
`lastCommitId = s` (with `s` not occurring earlier), the engine discards
`s` and everything after it and returns the remaining commits oldest
first (with every enrichment succeeding). -/
theorem getNewCommits_truncation (api : FetchParams → Option (List String))
    (since : Option String) (b s : String) (pre post : List String)
    (hapi : api (buildParams (some b) since) = some (pre ++ s :: post))
    (hb : b ≠ "*") (hs : s ∉ pre) (hnd : pre.Nodup) :
    getNewCommits api (fun sha => some (mkCommit sha)) since (some s) (some [b]) =
      pre.reverse.map mkCommit := by
  have hsel : branchSelectors (some [b]) = [some b] := by
    simp [branchSelectors, resolveBranches, Ne.symm hb]
  have hbranch : getBranchCommits api (fun sha => some (mkCommit sha)) (some b)
      since (some s) = pre.map mkCommit := by
    unfold getBranchCommits
    rw [hapi]
    show (filterNewCommits (some s) (pre ++ s :: post)).filterMap
        (fun sha => some (mkCommit sha)) = pre.map mkCommit
    rw [filterNewCommits_split pre post s hs]
    exact congrFun (List.filterMap_eq_map mkCommit) pre
  have hall : allBranchCommits api (fun sha => some (mkCommit sha)) since (some s)
      (some [b]) = pre.map mkCommit := by
    unfold allBranchCommits
    rw [hsel]
    simp [hbranch]
  unfold getNewCommits
  rw [hall, dedupCommits_eq_self]
  · simp
  · simp
  · simp only [List.map_map]
    have : (Commit.full_sha ∘ mkCommit) = id := funext (fun s => rfl)
    rw [this, List.map_id]
    exact hnd

theorem getNewCommits_truncation_witness :
    ((fun _ => some ["c5", "c4", "c3", "c2", "c1"]) (buildParams (some "main") none) =
        some (["c5", "c4"] ++ "c3" :: ["c2", "c1"])) ∧
    getNewCommits (fun _ => some ["c5", "c4", "c3", "c2", "c1"])
        (fun sha => some (mkCommit sha)) none (some "c3") (some ["main"]) =
      [mkCommit "c4", mkCommit "c5"] := by
  have h := getNewCommits_truncation (fun _ => some ["c5", "c4", "c3", "c2", "c1"])
      none "main" "c3" ["c5", "c4"] ["c2", "c1"] rfl (by decide) (by decide) (by decide)
  exact ⟨rfl, by rw [h]; rfl⟩

/-- C4: the engine concatenates the per-branch results in declared
branch order and deduplicates by full sha keeping first occurrences:
every full sha of the concatenation appears in the output exactly once
(and absent shas not at all), and each output commit is the first
commit of the concatenation carrying its full sha. -/
theorem getNewCommits_unique (api : FetchParams → Option (List String))
    (details : String → Option Commit) (since lastSha : Option String)
    (branches : Option (List String)) (sha : String) (c : Commit)
    (hc : c ∈ getNewCommits api details since lastSha branches) :
    ((getNewCommits api details since lastSha branches).countP
        (fun d => d.full_sha == sha) =
      if sha ∈ (allBranchCommits api details since lastSha branches).map Commit.full_sha
      then 1 else 0) ∧
    (allBranchCommits api details since lastSha branches).find?
        (fun d => d.full_sha == c.full_sha) = some c := by
  constructor
  · have h := dedupCommits_countP [] (allBranchCommits api details since lastSha branches) sha
    simpa [getNewCommits] using h
  · unfold getNewCommits at hc
    rw [List.mem_reverse] at hc
    exact (dedupCommits_find? [] _ c hc).2

theorem getNewCommits_unique_witness :
    (mkCommit "x" ∈ getNewCommits dupApi (fun s => some (mkCommit s)) none none
        (some ["A", "B"])) ∧
    (getNewCommits dupApi (fun s => some (mkCommit s)) none none
        (some ["A", "B"])).countP (fun d => d.full_sha == "x") = 1 ∧
    (allBranchCommits dupApi (fun s => some (mkCommit s)) none none
        (some ["A", "B"])).find? (fun d => d.full_sha == (mkCommit "x").full_sha) =
      some (mkCommit "x") := by
  have h := getNewCommits_unique dupApi (fun s => some (mkCommit s)) none none
      (some ["A", "B"]) "x" (mkCommit "x") (by decide)
  refine ⟨by decide, ?_, h.2⟩
  rw [h.1]
  decide

/-- C6: when the summarizer raises, the delivered message is the
fallback digest: the header followed by the entries of the first (at
most 5) commits and the overflow note counting the remainder. -/
theorem processRepo_fallback_digest (st : RepoState) (repo : String)
    (commits : List Commit) (now : Nat) (deliver : String → Except Unit Bool)
    (h : commits ≠ []) :
    (processRepo st repo commits now (Except.error ()) deliver).message =
      some (fallbackSummary repo commits) ∧
    fallbackSummary repo commits =
      fallbackHeader repo commits ++ entriesText (commits.take 5) ++
        overflowNote commits ∧
    (commits.take 5).length = min 5 commits.length := by
  refine ⟨?_, ?_, ?_⟩
  · cases commits with
    | nil => exact absurd rfl h
    | cons c cs =>
      simp only [processRepo]
      cases hd : deliver (summaryOf repo (c :: cs) (Except.error ())) with
      | ok b => cases b <;> simp [summaryOf]
      | error e => simp [summaryOf]
  · unfold fallbackSummary fallbackHeader overflowNote
    simp only [foldl_commitEntry]
    by_cases h5 : 5 < commits.length
    · simp [h5, String.append_assoc]
    · simp [h5]
  · simp [List.length_take]

theorem processRepo_fallback_digest_witness :
    (sample7 ≠ []) ∧
    ((processRepo ⟨none, none⟩ "o/r" sample7 0 (Except.error ())
        (fun _ => Except.ok true)).message = some (fallbackSummary "o/r" sample7) ∧
      fallbackSummary "o/r" sample7 =
        fallbackHeader "o/r" sample7 ++ entriesText (sample7.take 5) ++
          overflowNote sample7 ∧
      (sample7.take 5).length = min 5 sample7.length) ∧
    (sample7.take 5).length = 5 ∧
    overflowNote sample7 = "... 还有 2 个提交" := by
  refine ⟨by decide,
    processRepo_fallback_digest ⟨none, none⟩ "o/r" sample7 0
      (fun _ => Except.ok true) (by decide), by decide, by decide⟩

/-- C8: with no stored `lastCommitId`, no truncation occurs (every
commit of the response window is treated as new), and with no stored
`lastCheckTime` the `since` parameter is omitted from the request. -/
theorem getBranchCommits_no_checkpoint (api : FetchParams → Option (List String))
    (details : String → Option Commit) (branch : Option String)
    (since : Option String) (shas : List String)
    (hapi : api (buildParams branch since) = some shas) :
    filterNewCommits none shas = shas ∧
    getBranchCommits api details branch since none = shas.filterMap details ∧
    (buildParams branch none).since = none := by
  refine ⟨rfl, ?_, rfl⟩
  unfold getBranchCommits
  rw [hapi]
  rfl

theorem getBranchCommits_no_checkpoint_witness :
    ((fun _ => some ["a", "b"]) (buildParams none none) = some ["a", "b"]) ∧
    (filterNewCommits none ["a", "b"] = ["a", "b"] ∧
      getBranchCommits (fun _ => some ["a", "b"]) (fun s => some (mkCommit s))
          none none none = ["a", "b"].filterMap (fun s => some (mkCommit s)) ∧
      (buildParams none none).since = none) :=
  ⟨rfl, getBranchCommits_no_checkpoint (fun _ => some ["a", "b"])
    (fun s => some (mkCommit s)) none none ["a", "b"] rfl⟩

/-- C9: the all-branches sentinel (absent list, empty list, or the lone
wildcard) resolves to exactly one fetch with no branch selector, and an
explicit wildcard-free branch list resolves to one fetch per named
branch, in declared order. -/
theorem getNewCommits_branch_resolution (since : Option String) (bs : List String)
    (h1 : bs ≠ []) (h2 : "*" ∉ bs) :
    fetchCallParams none since = [buildParams none since] ∧
    fetchCallParams (some []) since = [buildParams none since] ∧
    fetchCallParams (some ["*"]) since = [buildParams none since] ∧
    (buildParams none since).sha = none ∧
    fetchCallParams (some bs) since = bs.map (fun b => buildParams (some b) since) := by
  refine ⟨rfl, rfl, rfl, rfl, ?_⟩
  have hempty : bs.isEmpty = false := by simpa [List.isEmpty_iff] using h1
  have hstar : bs.contains "*" = false := by simp [h2]
  unfold fetchCallParams branchSelectors resolveBranches
  simp [hempty, h2, List.map_map, Function.comp]

theorem getNewCommits_branch_resolution_witness :
    (["main", "dev"] ≠ ([] : List String)) ∧ ("*" ∉ ["main", "dev"]) ∧
    fetchCallParams (some ["main", "dev"]) none =
      ["main", "dev"].map (fun b => buildParams (some b) none) :=
  ⟨by decide, by decide,
    (getNewCommits_branch_resolution none ["main", "dev"] (by decide)
      (by decide)).2.2.2.2⟩

/-- C10: any occurrence of the wildcard in the branch list — even next
to named branches — collapses the whole list to the all-branches
sentinel: one fetch with no branch selector, the named branches
ignored. -/
theorem getNewCommits_wildcard_collapse (api : FetchParams → Option (List String))
    (details : String → Option Commit) (since lastSha : Option String)
    (bs : List String) (h : "*" ∈ bs) :
    fetchCallParams (some bs) since = [buildParams none since] ∧
    (buildParams none since).sha = none ∧
    getNewCommits api details since lastSha (some bs) =
      getNewCommits api details since lastSha none := by
  have hres : resolveBranches (some bs) = none := by
    simp [resolveBranches, h]
  refine ⟨?_, rfl, ?_⟩
  · unfold fetchCallParams branchSelectors
    rw [hres]
    rfl
  · unfold getNewCommits allBranchCommits branchSelectors
    rw [hres]
    rfl

theorem getNewCommits_wildcard_collapse_witness :
    ("*" ∈ ["main", "*"]) ∧
    fetchCallParams (some ["main", "*"]) none = [buildParams none none] ∧
    getNewCommits (fun _ => some ["a"]) (fun s => some (mkCommit s)) none none
        (some ["main", "*"]) =
      getNewCommits (fun _ => some ["a"]) (fun s => some (mkCommit s)) none none
        none := by
  have h := getNewCommits_wildcard_collapse (fun _ => some ["a"])
      (fun s => some (mkCommit s)) none none ["main", "*"] (by decide)
  exact ⟨by decide, h.1, h.2.2⟩

end GitHubQQBot
